import Mathlib

/-!
# Verification of the pairwise-decomposition learning core of cs-ranking

Shallow embedding of the RankNet / CmpNet / FETA learning core
(`csrank/learner.py`, `csrank/core/ranknet_core.py`, `csrank/cmpnet_core.py`,
`csrank/feta_choice.py`, `csrank/choicefunction/ranknet_choice.py`,
`csrank/discretechoice/feta_discrete_choice.py`) together with proofs about
the claims of the natural-language specification.

Numeric values are modelled as rationals.  The logistic sigmoid is modelled
either abstractly (a strictly monotone squashing function mapping `0` to
`1/2` with range inside `(0, 1)` -- the only properties of the sigmoid the
claims depend on) or, for concrete witnesses and counterexamples, by the
computable rational function `ratSigmoid` which enjoys exactly those
properties.  The undefined result of `numpy.mean` on an empty slice (a NaN)
is modelled by `Option.none`.
-/

namespace CsRank

/- ### Generic numeric helpers -/

/-- Dot product of two rational vectors (trailing entries of the longer
vector are ignored, as with `zipWith`). -/
def dot (w x : List ℚ) : ℚ := (List.zipWith (· * ·) w x).sum

/-- Rectified linear unit, the default `relu` activation of the Keras
`Dense` layers used by `RankNetCore`. -/
def relu (q : ℚ) : ℚ := max q 0

/-- Computable rational stand-in for the logistic sigmoid: strictly
monotone, maps `0` to `1/2`, and has range inside `(0, 1)`.  These are the
only properties of the sigmoid that the verified claims use, so theorems
are stated for an abstract squashing function and this definition supplies
concrete witnesses and counterexamples. -/
def ratSigmoid (z : ℚ) : ℚ := 1/2 + z / (2 * (1 + |z|))

/-- The properties of the logistic sigmoid used throughout: strict
monotonicity, `sigma 0 = 1/2`, and range inside the open interval `(0,1)`. -/
def SigmoidLike (σ : ℚ → ℚ) : Prop :=
  StrictMono σ ∧ σ 0 = 1/2 ∧ ∀ z, 0 < σ z ∧ σ z < 1

/-- `numpy.mean` over one axis: the mean of a list of rationals, `none` on
the empty list (numpy emits NaN for the mean of an empty slice). -/
def npMean (l : List ℚ) : Option ℚ :=
  if l.isEmpty then none else some (l.sum / l.length)

/- ### Ordered-pair enumeration and the score matrix

`itertools.permutations(range(n), 2)` enumerates, in lexicographic order,
all ordered pairs of distinct indices: for each `i` ascending, all
`j ≠ i` ascending. -/

/-- `itertools.permutations(range n, 2)`: all ordered pairs of distinct
indices below `n`, in lexicographic enumeration order. -/
def orderedPairs (n : ℕ) : List (ℕ × ℕ) :=
  (List.range n).flatMap fun i =>
    ((List.range n).filter fun j => j ≠ i).map fun j => (i, j)

/-- The flat array of pairwise predictions: the pairwise model `f` applied
to `(X i, X j)` for every ordered pair `(i, j)` of distinct indices, in
enumeration order.  This is the `result` array of
`CmpNetCore._predict_scores_fixed` (and of
`FETADiscreteChoiceFunction._predict_scores_using_pairs`). -/
def pairsFlat {V : Type} (f : V → V → ℚ) (X : ℕ → V) (n : ℕ) : List ℚ :=
  (orderedPairs n).map fun ij => f (X ij.1) (X ij.2)

/-- `numpy.reshape(rows, k)` of a flat list: row `r` is the slice of
length `k` starting at offset `r * k`. -/
def reshapeRows (rows k : ℕ) (l : List ℚ) : List (List ℚ) :=
  (List.range rows).map fun r => ((l.drop (r * k)).take k)

/-- Row `i` of the pairwise score matrix as the spec describes it: the
scores of object `i` against every other object `j ≠ i`, in ascending
order of `j`. -/
def competitorRow {V : Type} (f : V → V → ℚ) (X : ℕ → V) (n i : ℕ) : List ℚ :=
  ((List.range n).filter fun j => j ≠ i).map fun j => f (X i) (X j)

/-- `CmpNetCore._predict_scores_fixed` for a single query-set instance:
enumerate all ordered pairs of distinct objects, evaluate the pairwise
model on each, reshape to `n` rows of `n - 1` scores, and take the mean of
each row.  `f` is the first output column `N_g` of the pairwise network
applied to a pair of objects. -/
def cmpnetPredictScoresFixed {V : Type} (f : V → V → ℚ) (X : ℕ → V) (n : ℕ) :
    List (Option ℚ) :=
  (reshapeRows n (n - 1) (pairsFlat f X n)).map npMean

/- ### The learner predict plumbing (`csrank/learner.py`, `csrank/feta_choice.py`) -/

/-- The argument shape accepted by `predict_scores` and `predict`: either a
single fixed-size batch, or a mapping from query-set size to a batch
(a Python `dict`, modelled as an association list). -/
inductive QInput (β : Type) : Type where
  | single : β → QInput β
  | bySize : List (ℕ × β) → QInput β
deriving DecidableEq

/-- `Learner.predict_scores`: apply `_predict_scores_fixed` to the batch,
or to every batch of a size-keyed mapping, preserving the shape. -/
def predictScores {β γ : Type} (predictScoresFixed : β → γ) :
    QInput β → QInput γ
  | .single b => .single (predictScoresFixed b)
  | .bySize m => .bySize (m.map fun kb => (kb.1, predictScoresFixed kb.2))

/-- `Learner.predict`: compute the scores once with `predict_scores` and
hand exactly those scores to `predict_for_scores`. -/
def learnerPredict {β γ δ : Type} (predictScoresFixed : β → γ)
    (predictForScores : QInput γ → δ) (X : QInput β) : δ :=
  predictForScores (predictScores predictScoresFixed X)

/-- A batch of score arrays: one list of scores per instance. -/
abbrev ScoreBatch : Type := List (List ℚ)

/-- Elementwise `scores > threshold` on a batch of score arrays (the numpy
broadcast comparison). -/
def thresholdBatch (θ : ℚ) (s : ScoreBatch) : List (List Bool) :=
  s.map fun row => row.map fun v => decide (θ < v)

/-- Modelled from the spec: `ChoiceFunctions.predict_for_scores`
(`csrank/choicefunction/choice_functions.py` is not under `src/`).  The
spec's choice-function decision layer outputs the boolean vector
`score > threshold` per object and preserves the single-batch /
size-keyed-mapping shape of its input. -/
def choicePredictForScores (θ : ℚ) :
    QInput ScoreBatch → QInput (List (List Bool))
  | .single s => .single (thresholdBatch θ s)
  | .bySize m => .bySize (m.map fun ks => (ks.1, thresholdBatch θ ks.2))

/-- `FETAChoiceFunction.predict` (`feta_choice.py`): compute
`scores = self.predict_scores(X)` once and return `scores > self.threshold`
directly.  When `X` is a size-keyed mapping, `predict_scores` returns a
`dict`, and the Python comparison `dict > float` raises a `TypeError`;
this error outcome is modelled by `none`. -/
def fetaChoicePredict {β : Type} (predictScoresFixed : β → ScoreBatch)
    (θ : ℚ) (X : QInput β) : Option (QInput (List (List Bool))) :=
  match predictScores predictScoresFixed X with
  | .single s => some (.single (thresholdBatch θ s))
  | .bySize _ => none

/- ### The threshold tuner (`FETAChoiceFunction._tune_threshold`) -/

/-- True positives of one sample: positions labelled positive by both the
prediction and the ground truth. -/
def tpCount (t p : List Bool) : ℕ :=
  (List.zipWith (fun a b => a && b) t p).count true

/-- Per-sample F1 between a ground-truth boolean row `t` and a predicted
boolean row `p`: `2 tp / (|t| + |p|)` where `|.|` counts positives, and
`0` when both rows have no positives (sklearn sets the undefined value
to zero). -/
def sampleF1 (t p : List Bool) : ℚ :=
  let d : ℕ := t.count true + p.count true
  if d = 0 then 0 else 2 * (tpCount t p : ℚ) / (d : ℚ)

/-- `sklearn.metrics.f1_score(Y, P, average=..samples..)`: the mean of the
per-sample F1 values. -/
def samplesF1 (T P : List (List Bool)) : ℚ :=
  if T.length = 0 then 0 else (List.zipWith sampleF1 T P).sum / (T.length : ℚ)

/-- `np.unique`: the distinct values of a list, sorted ascending. -/
def uniqueSorted (l : List ℚ) : List ℚ := l.dedup.mergeSort (· ≤ ·)

/-- Python slicing `l[::k]`: every `k`-th element, starting at index 0. -/
def everyNth {α : Type} (l : List α) (k : ℕ) : List α :=
  (l.enum.filter fun p => p.1 % k = 0).map Prod.snd

/-- One step of the tuning loop: replace the running best `(threshold,
best-F1)` only on strict improvement of the F1 value of candidate `p`. -/
def stepBest (g : ℚ → ℚ) (tb : ℚ × ℚ) (p : ℚ) : ℚ × ℚ :=
  if g p > tb.2 then (p, g p) else tb

/-- `FETAChoiceFunction._tune_threshold` on already-computed validation
scores: candidates are the ascending unique scores subsampled with stride
`thin`; the running best starts at the baseline candidate `0.0` and is
replaced only on strict F1 improvement, scanning candidates in ascending
order; the selected threshold is returned. -/
def tune_threshold (scores : ScoreBatch) (Y : List (List Bool)) (thin : ℕ) : ℚ :=
  let probs := everyNth (uniqueSorted scores.flatten) thin
  let f1c := fun p : ℚ => samplesF1 Y (thresholdBatch p scores)
  (probs.foldl (stepBest f1c) (0, f1c 0)).1

/-- The maximum of `a :: l` computed by a left fold, as the tuning loop
does implicitly. -/
def listMax (a : ℚ) (l : List ℚ) : ℚ := l.foldl max a

/-- The earliest element of `c0 :: cs` attaining the maximal value of `g`
over `c0 :: cs` (specification-side description of the tuning loop). -/
def firstAtMax (g : ℚ → ℚ) (c0 : ℚ) (cs : List ℚ) : ℚ :=
  ((c0 :: cs).find? fun x => decide (g x = listMax (g c0) (cs.map g))).getD c0

/- ### Choice-function fit control flow
(`RankNetChoiceFunction.fit`, `FETAChoiceFunction.fit`) -/

/-- Observable trace of one `fit` call of a choice-function variant. -/
structure FitTrace (E S : Type) : Type where
  /-- whether `train_test_split` carved off a tuning split -/
  splitPerformed : Bool
  /-- whether `_tune_threshold` was invoked -/
  tuningAttempted : Bool
  /-- normal result (trained state and final threshold) or the exception
  that leaves `fit` -/
  result : Except E (S × ℚ)

/-- Python `try ... finally` where the final block also computes a value:
run the body, then always run the finaliser; an exception in the
finaliser replaces the pending body exception, otherwise the pending body
exception (if any) continues to propagate. -/
def tryFinally {E A B : Type} (body : Except E A) (finaliser : Except E B) :
    Except E (A × B) :=
  match body with
  | .ok a =>
    match finaliser with
    | .ok b => .ok (a, b)
    | .error e2 => .error e2
  | .error e =>
    match finaliser with
    | .ok _ => .error e
    | .error e2 => .error e2

/-- The `fit` of the choice-function variants
(`RankNetChoiceFunction.fit`, lines 144-169, and `FETAChoiceFunction.fit`,
lines 43-60): when `tune_size > 0`, split off a tuning set and run the
inner training inside `try`, with threshold tuning in the `finally`
block; when `tune_size = 0` (not `> 0`), train on everything and set the
threshold to exactly `0.5`, performing no split and no tuning.  The inner
training run and the tuning run are supplied as outcomes (`trainSplit` is
the training phase on the reduced split, `trainFull` the training phase on
the whole data). -/
def choiceFunctionFit {E S : Type} (tuneSize : ℚ)
    (trainFull trainSplit : Except E S) (tune : Except E ℚ) : FitTrace E S :=
  if 0 < tuneSize then
    { splitPerformed := true
      tuningAttempted := true
      result := tryFinally trainSplit tune }
  else
    { splitPerformed := false
      tuningAttempted := false
      result := trainFull.map fun s => (s, 1/2) }

/- ### The RankNet pairwise network (`csrank/core/ranknet_core.py`) -/

/-- One Keras `Dense` layer: a weight matrix (one row per unit) and a bias
vector; the activation is applied outside. -/
abbrev Layer : Type := List (List ℚ) × List ℚ

/-- The affine part of a `Dense` layer. -/
def denseAffine (L : Layer) (x : List ℚ) : List ℚ :=
  List.zipWith (fun row bi => dot row x + bi) L.1 L.2

/-- A `Dense` layer with activation `act` applied to every unit. -/
def denseAct (act : ℚ → ℚ) (L : Layer) (x : List ℚ) : List ℚ :=
  (denseAffine L x).map act

/-- Sequential application of a list of `Dense` layers. -/
def towerFrom (act : ℚ → ℚ) (layers : List Layer) (v : List ℚ) : List ℚ :=
  layers.foldl (fun v l => denseAct act l v) v

/-- Pre-sigmoid output of `RankNetCore.scoring_model`: feed the object
through all hidden layers (`l0 :: rest`) and the output unit
(`Dense(1, activation = sigmoid)`, weight row `wo`, bias `bo`).  The
utility score is the sigmoid of this value. -/
def ranknetUtilityPre (act : ℚ → ℚ) (l0 : Layer) (rest : List Layer)
    (wo : List ℚ) (bo : ℚ) (x : List ℚ) : ℚ :=
  dot wo (towerFrom act rest (denseAct act l0 x)) + bo

/-- The per-object utility score of `RankNetCore.scoring_model` under the
squashing function `σ`. -/
def ranknetUtility (σ act : ℚ → ℚ) (l0 : Layer) (rest : List Layer)
    (wo : List ℚ) (bo : ℚ) (x : List ℚ) : ℚ :=
  σ (ranknetUtilityPre act l0 rest wo bo x)

/-- Pre-sigmoid output of the pairwise model of
`RankNetCore.construct_model`: both objects pass through the shared first
hidden layer, the second encoding is negated (`Lambda(lambda x: -x)`),
both results pass through the same later hidden layers, the two branches
are merged with `add` and fed to the output unit. -/
def ranknetPairwisePre (act : ℚ → ℚ) (l0 : Layer) (rest : List Layer)
    (wo : List ℚ) (bo : ℚ) (x1 x2 : List ℚ) : ℚ :=
  let enc1 := towerFrom act rest (denseAct act l0 x1)
  let neg2 := towerFrom act rest ((denseAct act l0 x2).map Neg.neg)
  dot wo (List.zipWith (· + ·) enc1 neg2) + bo

/-- The pairwise preference probability `P_ij` produced by
`RankNetCore.construct_model` under the squashing function `σ`. -/
def ranknetPairwise (σ act : ℚ → ℚ) (l0 : Layer) (rest : List Layer)
    (wo : List ℚ) (bo : ℚ) (x1 x2 : List ℚ) : ℚ :=
  σ (ranknetPairwisePre act l0 rest wo bo x1 x2)

/-- `RankNetCore._predict_scores_fixed` for one query set: every object is
scored independently by the scoring model. -/
def ranknetPredictScoresFixed (σ act : ℚ → ℚ) (l0 : Layer)
    (rest : List Layer) (wo : List ℚ) (bo : ℚ) (X : ℕ → List ℚ) (n : ℕ) :
    List ℚ :=
  (List.range n).map fun i => ranknetUtility σ act l0 rest wo bo (X i)

/- ### The FETA first-order / zeroth-order graphs
(`csrank/discretechoice/feta_discrete_choice.py`)

The shared pairwise sub-network is abstracted as a function
`F : ℕ → ℕ → ℚ` on object indices of the current instance, where `F i j`
is the pre-activation pairwise score of object `i` against object `j`
(the `N_g` output of the CmpNet-style pair block applied to
`(X i, X j)`; by the weight sharing in `construct_model`, `N_l` of the
pair `(i, j)` equals `F j i`).  The zeroth-order tower is abstracted
likewise as `z : ℕ → ℚ` (the linear `zero_score` output). -/

/-- `itertools.combinations(range n, 2)`: all index pairs `i < j`, in
lexicographic enumeration order. -/
def combPairs (n : ℕ) : List (ℕ × ℕ) :=
  (List.range n).flatMap fun i =>
    ((List.range n).filter fun j => i < j).map fun j => (i, j)

/-- One step of the accumulation loop of
`FETADiscreteChoiceFunction.construct_model`: the combination `(i, j)`
appends `N_g = F i j` to row `i` and `N_l = F j i` to row `j`.  Rows are
modelled as a function from object index to its list of collected
pairwise scores. -/
def fetaPairStep (F : ℕ → ℕ → ℚ) (rows : ℕ → List ℚ) (ij : ℕ × ℕ) :
    ℕ → List ℚ :=
  fun r =>
    if r = ij.1 then rows r ++ [F ij.1 ij.2]
    else if r = ij.2 then rows r ++ [F ij.2 ij.1]
    else rows r

/-- The per-object pairwise rows accumulated by
`FETADiscreteChoiceFunction.construct_model` over all combinations,
starting from empty rows. -/
def fetaTrainRows (F : ℕ → ℕ → ℚ) (n : ℕ) : ℕ → List ℚ :=
  (combPairs n).foldl (fetaPairStep F) fun _ => []

/-- The learned weighted-sum unit (`Dense(1, activation = sigmoid)` named
`weighted_sum`) blending a first-order score `s` and a zeroth-order score
`v`. -/
def weightedSum (σ : ℚ → ℚ) (w1 w2 b s v : ℚ) : ℚ := σ (w1 * s + w2 * v + b)

/-- The scores of the compiled training graph of
`FETADiscreteChoiceFunction.construct_model`: per-object mean of the
collected pairwise row, then either the learned weighted-sum blend with
the (linear) zeroth-order score when `add_zeroth_order_model` is set, or
a final sigmoid activation otherwise. -/
def fetaTrainScores (σ : ℚ → ℚ) (addZeroth : Bool) (F : ℕ → ℕ → ℚ)
    (z : ℕ → ℚ) (w1 w2 b : ℚ) (n : ℕ) : List (Option ℚ) :=
  if addZeroth then
    (List.range n).map fun i =>
      (npMean (fetaTrainRows F n i)).map fun m => weightedSum σ w1 w2 b m (z i)
  else
    (List.range n).map fun i => (npMean (fetaTrainRows F n i)).map σ

/-- `FETADiscreteChoiceFunction._predict_scores_using_pairs` for one query
set: enumerate all ordered pairs, evaluate the shared pairwise
sub-network, reshape to rows and take row means; then either apply the
numpy sigmoid, or blend with the zeroth-order model prediction through
`_create_weighted_model`.  Note that the zeroth-order prediction is
`_create_zeroth_order_model`, which applies a sigmoid activation to the
linear `zero_score` output before the blend. -/
def fetaPredictScoresUsingPairs (σ : ℚ → ℚ) (addZeroth : Bool)
    (F : ℕ → ℕ → ℚ) (z : ℕ → ℚ) (w1 w2 b : ℚ) (n : ℕ) : List (Option ℚ) :=
  let rows := reshapeRows n (n - 1) (pairsFlat F id n)
  if addZeroth then
    let zeroScores := (List.range n).map fun i => σ (z i)
    List.zipWith (fun m v => m.map fun mv => weightedSum σ w1 w2 b mv v)
      (rows.map npMean) zeroScores
  else
    rows.map fun r => (npMean r).map σ

/- ### Constructor keyword handling
(`Learner._store_kwargs`, `RankNetCore.__init__`, `CmpNetCore.__init__`) -/

/-- Python `str.startswith`, on the character lists of the strings. -/
def keyStarts (p s : String) : Bool := p.data.isPrefixOf s.data

/-- `Learner._store_kwargs` (`learner.py`, lines 22-41): walk the keyword
arguments in order; the first key that starts with none of the allowed
namespace markers raises a `TypeError` naming that key and the allowed
set (modelled as the error value); otherwise all keyword arguments are
stored.  `allowedStarts` is the `allowed_prefixes` argument of the
source. -/
def store_kwargs {V : Type} (allowedStarts : List String)
    (kwargs : List (String × V)) :
    Except (String × List String) (List (String × V)) :=
  let rec check : List (String × V) → Except (String × List String) Unit
    | [] => .ok ()
    | kv :: rest =>
      if allowedStarts.any fun p => keyStarts p kv.1 then check rest
      else .error (kv.1, allowedStarts)
  (check kwargs).map fun _ => kwargs

/-- Modelled from the spec: `allowed_dense_kwargs` of `csrank.constants`
(not under `src/`) -- the recognized option names that may be forwarded to
the hidden `Dense` layers (spec section 6, construction-time
configuration). -/
def allowed_dense_kwargs : List String :=
  ["units", "activation", "use_bias", "kernel_initializer",
   "bias_initializer", "kernel_regularizer", "bias_regularizer",
   "activity_regularizer", "kernel_constraint", "bias_constraint"]

/-- The keyword handling of `RankNetCore.__init__` (lines 44-48) and
`CmpNetCore.__init__` (lines 94-98): every keyword argument whose key is
not in `allowed_dense_kwargs` is deleted from the dictionary; the
remaining ones are stored.  No error is ever raised. -/
def ranknetInitKwargs {V : Type} (allowed : List String)
    (kwargs : List (String × V)) : List (String × V) :=
  kwargs.filter fun kv => kv.1 ∈ allowed

/- ### Refit state (`RankNetCore.fit` / `scoring_model`) -/

/-- The mutable state of a `RankNetCore` learner relevant to refitting:
the trained tower weights (`hidden_layers` and the output node, rebuilt by
every `fit`), and the cached derived scoring model `self._scoring_model`
(set to `None` in `__init__` only). -/
structure RankNetState (W : Type) : Type where
  /-- weights of the currently constructed and trained tower -/
  layers : Option W
  /-- the cached `self._scoring_model` -/
  scoringCache : Option W

/-- The state right after `__init__`: nothing trained, no cached scoring
model. -/
def ranknetInit {W : Type} : RankNetState W := ⟨none, none⟩

/-- `RankNetCore.fit`: rebuild the layers and train them on the data
(`train d`), replacing the previous tower.  The cached
`self._scoring_model` is not touched -- `fit` never resets it. -/
def ranknetFit {W D : Type} (train : D → W) (d : D) (s : RankNetState W) :
    RankNetState W :=
  { layers := some (train d), scoringCache := s.scoringCache }

/-- The `scoring_model` property: return the cached model if present,
otherwise derive one from the current layers and cache it.  Calling it
before any `fit` fails (no layers exist), modelled by `none`. -/
def ranknetScoringModel {W : Type} (s : RankNetState W) :
    Option W × RankNetState W :=
  match s.scoringCache with
  | some m => (some m, s)
  | none =>
    match s.layers with
    | some w => (some w, { s with scoringCache := some w })
    | none => (none, s)

/-- `RankNetCore._predict_scores_fixed` at the state level: predictions
are produced by whatever `scoring_model` returns. -/
def ranknetStatePredict {W Y : Type} (apply : W → Y) (s : RankNetState W) :
    Option Y × RankNetState W :=
  let (m, s') := ranknetScoringModel s
  (m.map apply, s')

/- ### Specification predicates for the larger claims -/

/-- Specification of the pairwise score-matrix construction of
`CmpNetCore._predict_scores_fixed` (claim C4): the flat prediction array
has one entry per ordered pair of distinct objects; reshaping yields for
every object `i` exactly its `n - 1` scores against every other object,
in enumeration order; the utility score of object `i` is the arithmetic
mean of its row. -/
def PairScoreMatrixSpec {V : Type} (f : V → V → ℚ) (X : ℕ → V) (n : ℕ) :
    Prop :=
  (pairsFlat f X n).length = n * (n - 1) ∧
  reshapeRows n (n - 1) (pairsFlat f X n) =
    (List.range n).map (competitorRow f X n) ∧
  (∀ i ∈ List.range n, (competitorRow f X n i).length = n - 1) ∧
  cmpnetPredictScoresFixed f X n =
    (List.range n).map (fun i => npMean (competitorRow f X n i)) ∧
  (2 ≤ n → ∀ i ∈ List.range n,
    npMean (competitorRow f X n i) =
      some ((competitorRow f X n i).sum / ((n - 1 : ℕ) : ℚ)))

/-- Specification of `FETAChoiceFunction._tune_threshold` (claim C2):
candidate thresholds are the ascending sorted unique predicted scores,
subsampled with the given stride, scanned after the baseline candidate
`0.0`; the returned threshold is the earliest-evaluated candidate of
maximal sample-averaged F1, and it is `0.0` whenever no candidate strictly
beats the baseline. -/
def TuneThresholdSpec (scores : ScoreBatch) (Y : List (List Bool))
    (thin : ℕ) : Prop :=
  let cands := uniqueSorted scores.flatten
  let probs := everyNth cands thin
  let f1c := fun p : ℚ => samplesF1 Y (thresholdBatch p scores)
  let t := tune_threshold scores Y thin
  List.Sorted (· < ·) cands ∧
  (∀ x : ℚ, x ∈ cands ↔ x ∈ scores.flatten) ∧
  probs.Sublist cands ∧
  List.Sorted (· < ·) probs ∧
  t = firstAtMax f1c 0 probs ∧
  (t = 0 ∨ t ∈ probs) ∧
  (∀ p ∈ (0 : ℚ) :: probs, f1c p ≤ f1c t) ∧
  ((∀ p ∈ probs, f1c p ≤ f1c 0) → t = 0)

/- ## Helper lemmas -/

theorem ratSigmoid_strictMono : StrictMono ratSigmoid := by
  intro a b hab
  unfold ratSigmoid
  have ha : (0:ℚ) < 2 * (1 + |a|) := by positivity
  have hb : (0:ℚ) < 2 * (1 + |b|) := by positivity
  have key : a / (2 * (1 + |a|)) < b / (2 * (1 + |b|)) := by
    rw [div_lt_div_iff₀ ha hb]
    rcases abs_cases a with ⟨ha1, ha2⟩ | ⟨ha1, ha2⟩ <;>
      rcases abs_cases b with ⟨hb1, hb2⟩ | ⟨hb1, hb2⟩ <;>
      rw [ha1, hb1] <;> nlinarith
  linarith

theorem ratSigmoid_zero : ratSigmoid 0 = 1/2 := by
  norm_num [ratSigmoid]

theorem ratSigmoid_mem_unit (z : ℚ) : 0 < ratSigmoid z ∧ ratSigmoid z < 1 := by
  unfold ratSigmoid
  have h : (0:ℚ) < 2 * (1 + |z|) := by positivity
  have h1 : -(1 + |z|) < z := by
    have := neg_abs_le z
    linarith
  have h2 : z < 1 + |z| := by
    have := le_abs_self z
    linarith
  constructor
  · have hlow : -(1:ℚ)/2 < z / (2 * (1 + |z|)) := by
      rw [div_lt_div_iff₀ (by norm_num) h]
      linarith
    linarith
  · have hhigh : z / (2 * (1 + |z|)) < 1/2 := by
      rw [div_lt_div_iff₀ h (by norm_num)]
      linarith
    linarith

theorem ratSigmoid_sigmoidLike : SigmoidLike ratSigmoid :=
  ⟨ratSigmoid_strictMono, ratSigmoid_zero, ratSigmoid_mem_unit⟩

/- ## C1: predict derives from predict_scores and predict_for_scores -/

/-- **C1, counterexample.**  For `FETAChoiceFunction`, `predict` on a
size-keyed mapping raises a `TypeError` (the Python comparison
`dict > float`), modelled here as `none`, whereas
`predict_for_scores (predict_scores X)` returns the thresholded mapping:
the claimed equality fails for this variant on mapping inputs. -/
theorem feta_choice_predict_mapping_counterexample :
    fetaChoicePredict (fun b : ScoreBatch => b) (1/2)
        (.bySize [(2, [[0, 1]])]) = none ∧
    choicePredictForScores (1/2)
        (predictScores (fun b : ScoreBatch => b) (.bySize [(2, [[0, 1]])])) =
      .bySize [(2, [[false, true]])] := by
  constructor
  · rfl
  · simp [choicePredictForScores, predictScores, thresholdBatch]
    norm_num

/-- **C1, amended.**  `Learner.predict` always equals
`predict_for_scores (predict_scores X)` with the scores computed exactly
once, for single batches and for size-keyed mappings alike; the
overriding `FETAChoiceFunction.predict` also thresholds a single
evaluation of `predict_scores`, and on single-batch inputs it agrees
with `predict_for_scores (predict_scores X)`, but on size-keyed mappings
it raises instead of returning the per-size thresholded mapping. -/
theorem predict_composes_predict_scores :
    (∀ (β γ δ : Type) (psf : β → γ) (pfs : QInput γ → δ) (X : QInput β),
        learnerPredict psf pfs X = pfs (predictScores psf X)) ∧
    (∀ (β : Type) (psf : β → ScoreBatch) (θ : ℚ) (b : β),
        fetaChoicePredict psf θ (.single b) =
          some (choicePredictForScores θ (predictScores psf (.single b)))) := by
  constructor
  · intro β γ δ psf pfs X
    rfl
  · intro β psf θ b
    rfl

/- ## C5: tuning is attempted even when training raises -/

/-- **C5, counterexample.**  When the inner training raises and the
threshold tuning in the `finally` block raises as well, the tuning
exception -- not the original training exception -- leaves `fit`
(Python `try/finally` semantics), refuting the unconditional claim that
the original exception propagates. -/
theorem choice_fit_finally_error_counterexample :
    (choiceFunctionFit (1/10) (.ok 0) (.error 0) (.error 1) :
        FitTrace ℕ ℕ).result = .error 1 ∧
    (choiceFunctionFit (1/10) (.ok 0) (.error 0) (.error 1) :
        FitTrace ℕ ℕ).result ≠ .error 0 := by
  have h : (0:ℚ) < 1/10 := by norm_num
  constructor
  · simp [choiceFunctionFit, tryFinally, h]
  · simp [choiceFunctionFit, tryFinally, h]

/-- **C5, amended.**  With `tune_size > 0`, if the inner training phase
raises, threshold tuning is still attempted before the exception leaves
`fit`, and -- provided the tuning itself completes normally -- the
original training exception propagates to the caller; if the tuning also
raises, the tuning exception propagates instead. -/
theorem choice_fit_tunes_then_propagates {E S : Type} (tuneSize : ℚ)
    (htune : 0 < tuneSize) (trainFull : Except E S) (e : E) (t : ℚ) :
    (choiceFunctionFit tuneSize trainFull (.error e) (.ok t) :
        FitTrace E S).tuningAttempted = true ∧
    (choiceFunctionFit tuneSize trainFull (.error e) (.ok t) :
        FitTrace E S).result = .error e := by
  simp [choiceFunctionFit, htune, tryFinally]

/-- **C5, witness.** -/
theorem choice_fit_tunes_then_propagates_witness :
    (0 : ℚ) < 1/10 ∧
    (choiceFunctionFit (1/10) (.ok 7) (.error 3) (.ok (1/4)) :
        FitTrace ℕ ℕ).tuningAttempted = true ∧
    (choiceFunctionFit (1/10) (.ok 7) (.error 3) (.ok (1/4)) :
        FitTrace ℕ ℕ).result = .error 3 :=
  ⟨by norm_num,
   choice_fit_tunes_then_propagates (1/10) (by norm_num) (.ok 7) 3 (1/4)⟩

/- ## C6: tune_size = 0 gives threshold 0.5 and no tuning computation -/

/-- **C6, confirmed.**  Calling the choice-function `fit` with
`tune_size = 0` performs no train/tuning split and never invokes the
threshold tuner, and on normal completion of training the threshold is
set to exactly `0.5`. -/
theorem tune_size_zero_fit {E S : Type} (trainFull trainSplit : Except E S)
    (tune : Except E ℚ) :
    (choiceFunctionFit 0 trainFull trainSplit tune).splitPerformed = false ∧
    (choiceFunctionFit 0 trainFull trainSplit tune).tuningAttempted = false ∧
    (choiceFunctionFit 0 trainFull trainSplit tune).result =
      trainFull.map fun s => (s, 1/2) := by
  simp [choiceFunctionFit]

/- ## C9: refitting keeps the stale cached scoring model -/

/-- **C9, code bug.**  `RankNetCore.fit` rebuilds and retrains the tower
but never resets the cached `self._scoring_model`.  After
`fit d1; predict; fit d2`, predictions still come from the model derived
during the first fit (training function modelled as the identity on the
data, so the prediction reveals which data trained the model in use): the
refitted learner predicts from `d1 = 1`, while a freshly constructed
learner fitted on `d2 = 2` predicts from `2`. -/
theorem refit_uses_stale_scoring_model :
    (ranknetStatePredict (fun w => w)
        (ranknetFit (fun d : ℚ => d) 2
          (ranknetStatePredict (fun w => w)
            (ranknetFit (fun d : ℚ => d) 1 ranknetInit)).2)).1 = some 1 ∧
    (ranknetStatePredict (fun w => w)
        (ranknetFit (fun d : ℚ => d) 2 ranknetInit)).1 = some 2 := by
  constructor <;> rfl

/- ## C7: handling of unrecognized constructor keywords -/

/-- **C7, counterexample.**  `RankNetCore.__init__` (and identically
`CmpNetCore.__init__`) silently deletes every keyword argument whose key
is not in `allowed_dense_kwargs`: construction succeeds, no error names
the offending key, and the keyword is dropped -- refuting the claim that
every unrecognized constructor keyword fails fast with a descriptive
error. -/
theorem ranknet_kwargs_silently_dropped :
    ranknetInitKwargs allowed_dense_kwargs
        [("definitely_not_a_real_argument", (0 : ℕ))] = [] := by
  decide

/-- **C7, amended.**  Constructors going through `Learner._store_kwargs`
(such as `FETADiscreteChoiceFunction`) do fail fast: the keywords are
checked in order, all are stored when every key starts with an allowed
namespace marker, and otherwise a `TypeError` is raised naming the first
offending key together with the allowed set.  The `RankNetCore` /
`CmpNetCore` constructors, however, never fail on an unrecognized
keyword: they keep exactly the keywords whose keys are in
`allowed_dense_kwargs` and silently delete the rest. -/
theorem kwargs_handling_amended {V : Type} :
    (∀ (A : List String) (kws : List (String × V)),
        (∀ kv ∈ kws, ∃ p ∈ A, keyStarts p kv.1) →
        store_kwargs A kws = .ok kws) ∧
    (∀ (A : List String) (kws : List (String × V)) (k : String)
        (B : List String),
        store_kwargs A kws = .error (k, B) →
        B = A ∧ k ∈ kws.map Prod.fst ∧ ∀ p ∈ A, ¬ keyStarts p k) ∧
    (∀ (A : List String) (kws : List (String × V)) (kv : String × V),
        kv ∈ ranknetInitKwargs A kws ↔ kv ∈ kws ∧ kv.1 ∈ A) := by
  refine ⟨?_, ?_, ?_⟩
  · intro A kws h
    have hcheck : ∀ l : List (String × V),
        (∀ kv ∈ l, ∃ p ∈ A, keyStarts p kv.1) →
        store_kwargs.check A l = .ok () := by
      intro l
      induction l with
      | nil => intro _; rfl
      | cons kv rest ih =>
        intro hall
        obtain ⟨p, hp, hpre⟩ := hall kv (by simp)
        have hany : A.any (fun q => keyStarts q kv.1) = true := by
          simp only [List.any_eq_true]
          exact ⟨p, hp, hpre⟩
        simp only [store_kwargs.check, hany, if_pos]
        exact ih fun kv h => hall kv (by simp [h])
    unfold store_kwargs
    rw [hcheck kws h]
    rfl
  · intro A kws k B herr
    have hcheck : ∀ l : List (String × V),
        store_kwargs.check A l = .error (k, B) →
        B = A ∧ k ∈ l.map Prod.fst ∧ ∀ p ∈ A, ¬ keyStarts p k := by
      intro l
      induction l with
      | nil => intro h; simp [store_kwargs.check] at h
      | cons kv rest ih =>
        intro h
        by_cases hany : A.any (fun q => keyStarts q kv.1) = true
        · simp only [store_kwargs.check, hany, if_pos] at h
          obtain ⟨hB, hk, hbad⟩ := ih h
          exact ⟨hB, by simp [hk], hbad⟩
        · simp [store_kwargs.check, hany] at h
          obtain ⟨hk, hB⟩ := h
          subst hk
          subst hB
          refine ⟨rfl, by simp, ?_⟩
          intro p hp hpre
          exact hany (by simp only [List.any_eq_true]; exact ⟨p, hp, hpre⟩)
    have h' : store_kwargs.check A kws = .error (k, B) := by
      unfold store_kwargs at herr
      cases hc : store_kwargs.check A kws with
      | ok u => rw [hc] at herr; simp [Except.map] at herr
      | error e =>
        rw [hc] at herr
        have he : e = (k, B) := by
          simpa [Except.map] using herr
        rw [he]
    exact hcheck kws h'
  · intro A kws kv
    simp [ranknetInitKwargs]

/-- **C7, witness** for the amended claim: the FETA-style constructor
accepts a properly namespaced keyword. -/
theorem kwargs_handling_amended_witness :
    store_kwargs ["optimizer__", "kernel_regularizer__",
        "hidden_dense_layer__"] [("optimizer__lr", (0 : ℕ))] =
      .ok [("optimizer__lr", (0 : ℕ))] :=
  kwargs_handling_amended.1 _ _ (by decide)

/- ## C4: the pairwise score matrix and row means -/

theorem filter_ne_range_length (n i : ℕ) (h : i < n) :
    ((List.range n).filter (fun j => j ≠ i)).length = n - 1 := by
  have hnd : (List.range n).Nodup := List.nodup_range n
  have hmem : i ∈ List.range n := List.mem_range.mpr h
  have h1 : (List.range n).erase i = (List.range n).filter (fun j => j != i) :=
    hnd.erase_eq_filter i
  have h2 : ((List.range n).erase i).length + 1 = (List.range n).length :=
    List.length_erase_add_one hmem
  simp only [List.length_range] at h2
  have h3 : (List.range n).filter (fun j => j != i) =
      (List.range n).filter (fun j => decide (j ≠ i)) := by
    apply List.filter_congr
    intro x _
    by_cases hxi : x = i <;> simp [hxi]
  rw [← h3, ← h1]
  omega

theorem competitorRow_length {V : Type} (f : V → V → ℚ) (X : ℕ → V)
    (n i : ℕ) (h : i < n) : (competitorRow f X n i).length = n - 1 := by
  unfold competitorRow
  rw [List.length_map]
  exact filter_ne_range_length n i h

theorem flatMap_chunk {α β : Type} (g : α → List β) (k : ℕ) :
    ∀ (l : List α), (∀ a ∈ l, (g a).length = k) →
    ∀ (i : ℕ) (hi : i < l.length),
    ((l.flatMap g).drop (i * k)).take k = g l[i] := by
  intro l
  induction l with
  | nil => intro _ i hi; simp at hi
  | cons a t ih =>
    intro hlen i hi
    cases i with
    | zero =>
      simp only [List.flatMap_cons, Nat.zero_mul, List.drop_zero,
        List.getElem_cons_zero]
      exact List.take_left' (hlen a (by simp))
    | succ j =>
      have hm : (j + 1) * k = (g a).length + j * k := by
        rw [hlen a (by simp)]
        ring
      rw [List.flatMap_cons, hm, List.drop_append, List.getElem_cons_succ]
      exact ih (fun x hx => hlen x (by simp [hx])) j (by simpa using hi)

theorem pairsFlat_eq_flatMap {V : Type} (f : V → V → ℚ) (X : ℕ → V) (n : ℕ) :
    pairsFlat f X n = (List.range n).flatMap (competitorRow f X n) := by
  unfold pairsFlat orderedPairs competitorRow
  rw [List.map_flatMap]
  simp only [List.map_map]
  rfl

theorem reshape_pairsFlat {V : Type} (f : V → V → ℚ) (X : ℕ → V) (n : ℕ) :
    reshapeRows n (n - 1) (pairsFlat f X n) =
      (List.range n).map (competitorRow f X n) := by
  unfold reshapeRows
  apply List.map_congr_left
  intro r hr
  rw [pairsFlat_eq_flatMap]
  have hr' : r < (List.range n).length := by simpa using hr
  have := flatMap_chunk (competitorRow f X n) (n - 1) (List.range n)
    (fun a ha => competitorRow_length f X n a (List.mem_range.mp ha)) r hr'
  simpa using this

/-- **C4, confirmed.**  Pairwise score prediction enumerates all
`n * (n - 1)` ordered pairs of distinct objects in lexicographic
enumeration order; the reshaped score matrix has exactly row `i` holding
the `n - 1` scores of object `i` against every other object; and the
utility score of object `i` is the arithmetic mean of its row. -/
theorem pair_score_matrix_correct {V : Type} (f : V → V → ℚ) (X : ℕ → V)
    (n : ℕ) : PairScoreMatrixSpec f X n := by
  have hrows := reshape_pairsFlat f X n
  refine ⟨?_, hrows, ?_, ?_, ?_⟩
  · rw [pairsFlat_eq_flatMap, List.length_flatMap]
    have hmap : (List.range n).map (List.length ∘ competitorRow f X n) =
        (List.range n).map (fun _ => n - 1) := by
      apply List.map_congr_left
      intro a ha
      exact competitorRow_length f X n a (List.mem_range.mp ha)
    rw [hmap, List.map_const', List.sum_replicate, List.length_range,
      smul_eq_mul]
  · intro i hi
    exact competitorRow_length f X n i (List.mem_range.mp hi)
  · unfold cmpnetPredictScoresFixed
    rw [hrows, List.map_map]
    rfl
  · intro h2 i hi
    have hlen : (competitorRow f X n i).length = n - 1 :=
      competitorRow_length f X n i (List.mem_range.mp hi)
    have hne : (competitorRow f X n i).isEmpty = false := by
      rw [List.isEmpty_eq_false_iff_exists_mem]
      have : 0 < (competitorRow f X n i).length := by omega
      obtain ⟨x, hx⟩ := List.exists_mem_of_length_pos this
      exact ⟨x, hx⟩
    unfold npMean
    rw [hne]
    simp only [Bool.false_eq_true, if_false, hlen]

/-- **C4, witness.** -/
theorem pair_score_matrix_correct_witness :
    2 ≤ 3 ∧ PairScoreMatrixSpec (fun a b : ℚ => a - b) (fun i => (i : ℚ)) 3 :=
  ⟨by decide, pair_score_matrix_correct (fun a b : ℚ => a - b)
    (fun i => (i : ℚ)) 3⟩

/- ## C2: the threshold tuner -/

theorem foldl_max_init_le : ∀ (l : List ℚ) (a : ℚ), a ≤ l.foldl max a := by
  intro l
  induction l with
  | nil => intro a; simp
  | cons b t ih =>
    intro a
    calc a ≤ max a b := le_max_left a b
    _ ≤ t.foldl max (max a b) := ih (max a b)
    _ = (b :: t).foldl max a := rfl

theorem foldl_max_mem_le :
    ∀ (l : List ℚ) (a x : ℚ), x ∈ l → x ≤ l.foldl max a := by
  intro l
  induction l with
  | nil => intro a x hx; simp at hx
  | cons b t ih =>
    intro a x hx
    rcases List.mem_cons.mp hx with h | h
    · subst h
      calc x ≤ max a x := le_max_right a x
      _ ≤ t.foldl max (max a x) := foldl_max_init_le t _
    · exact ih (max a b) x h

theorem foldl_max_mem :
    ∀ (l : List ℚ) (a : ℚ), l.foldl max a = a ∨ l.foldl max a ∈ l := by
  intro l
  induction l with
  | nil => intro a; left; rfl
  | cons b t ih =>
    intro a
    rcases ih (max a b) with h | h
    · rcases max_choice a b with hm | hm
      · left; rw [List.foldl_cons, h, hm]
      · right; rw [List.foldl_cons, h, hm]; simp
    · right; rw [List.foldl_cons]; simp [h]

theorem foldl_max_eq_init :
    ∀ (l : List ℚ) (a : ℚ), (∀ x ∈ l, x ≤ a) → l.foldl max a = a := by
  intro l
  induction l with
  | nil => intro a _; rfl
  | cons b t ih =>
    intro a h
    rw [List.foldl_cons, max_eq_left (h b (by simp))]
    exact ih a fun x hx => h x (by simp [hx])

/-- The tuning loop, which replaces the running best only on strict
improvement, computes exactly the earliest candidate attaining the
maximal objective value, together with that value. -/
theorem foldl_stepBest_eq (g : ℚ → ℚ) :
    ∀ (l : List ℚ) (t : ℚ),
    l.foldl (stepBest g) (t, g t) =
      (firstAtMax g t l, listMax (g t) (l.map g)) := by
  intro l
  induction l with
  | nil =>
    intro t
    simp [firstAtMax, listMax, List.find?]
  | cons p l ih =>
    intro t
    rw [List.foldl_cons]
    by_cases h : g p > g t
    · have hstep : stepBest g (t, g t) p = (p, g p) := by
        simp [stepBest, h]
      rw [hstep, ih p]
      have hM : listMax (g t) ((p :: l).map g) = listMax (g p) (l.map g) := by
        simp only [List.map_cons, listMax, List.foldl_cons]
        rw [max_eq_right (le_of_lt h)]
      rw [hM]
      have hMattain : ∃ x ∈ p :: l, g x = listMax (g p) (l.map g) := by
        rcases foldl_max_mem (l.map g) (g p) with hc | hc
        · exact ⟨p, by simp, hc.symm⟩
        · obtain ⟨x, hx, hgx⟩ := List.mem_map.mp hc
          exact ⟨x, by simp [hx], hgx⟩
      have htne : ¬ (g t = listMax (g p) (l.map g)) := by
        have : g p ≤ listMax (g p) (l.map g) := foldl_max_init_le (l.map g) (g p)
        intro hcontra
        linarith
      have hfirst : firstAtMax g t (p :: l) = firstAtMax g p l := by
        unfold firstAtMax
        rw [hM]
        rw [List.find?_cons_of_neg _ (by simpa using htne)]
        obtain ⟨x, hx, hgx⟩ := hMattain
        have hsome : ((p :: l).find? fun y =>
            decide (g y = listMax (g p) (l.map g))).isSome := by
          rw [List.find?_isSome]
          exact ⟨x, hx, by simpa using hgx⟩
        cases hfind : (p :: l).find? fun y =>
            decide (g y = listMax (g p) (l.map g)) with
        | none => rw [hfind] at hsome; simp at hsome
        | some v => simp [hfind]
      rw [hfirst]
    · have hstep : stepBest g (t, g t) p = (t, g t) := by
        simp [stepBest, h]
      push_neg at h
      rw [hstep, ih t]
      have hM : listMax (g t) ((p :: l).map g) = listMax (g t) (l.map g) := by
        simp only [List.map_cons, listMax, List.foldl_cons]
        rw [max_eq_left h]
      rw [hM]
      have hfirst : firstAtMax g t (p :: l) = firstAtMax g t l := by
        unfold firstAtMax
        rw [hM]
        by_cases ht : g t = listMax (g t) (l.map g)
        · rw [List.find?_cons_of_pos _ (by simpa using ht),
            List.find?_cons_of_pos _ (by simpa using ht)]
        · have hp : ¬ (g p = listMax (g t) (l.map g)) := by
            have h1 : g t ≤ listMax (g t) (l.map g) :=
              foldl_max_init_le (l.map g) (g t)
            intro hcontra
            have : g t < listMax (g t) (l.map g) := lt_of_le_of_ne h1 ht
            linarith
          rw [List.find?_cons_of_neg _ (by simpa using ht),
            List.find?_cons_of_neg _ (by simpa using hp),
            List.find?_cons_of_neg _ (by simpa using ht)]
      rw [hfirst]

theorem firstAtMax_mem (g : ℚ → ℚ) (t : ℚ) (l : List ℚ) :
    firstAtMax g t l = t ∨ firstAtMax g t l ∈ l := by
  unfold firstAtMax
  cases hfind : (t :: l).find? fun x =>
      decide (g x = listMax (g t) (l.map g)) with
  | none => left; rfl
  | some v =>
    have hv := List.mem_of_find?_eq_some hfind
    rcases List.mem_cons.mp hv with h | h
    · left
      simp only [hfind, Option.getD_some, h]
    · right; simpa using h

theorem firstAtMax_val (g : ℚ → ℚ) (t : ℚ) (l : List ℚ) :
    g (firstAtMax g t l) = listMax (g t) (l.map g) := by
  unfold firstAtMax
  have hMattain : ∃ x ∈ t :: l, g x = listMax (g t) (l.map g) := by
    rcases foldl_max_mem (l.map g) (g t) with hc | hc
    · exact ⟨t, by simp, hc.symm⟩
    · obtain ⟨x, hx, hgx⟩ := List.mem_map.mp hc
      exact ⟨x, by simp [hx], hgx⟩
  obtain ⟨x, hx, hgx⟩ := hMattain
  have hsome : ((t :: l).find? fun y =>
      decide (g y = listMax (g t) (l.map g))).isSome := by
    rw [List.find?_isSome]
    exact ⟨x, hx, by simpa using hgx⟩
  cases hfind : (t :: l).find? fun y =>
      decide (g y = listMax (g t) (l.map g)) with
  | none => rw [hfind] at hsome; simp at hsome
  | some v =>
    have := List.find?_some hfind
    simpa using this

theorem firstAtMax_ge (g : ℚ → ℚ) (t : ℚ) (l : List ℚ) :
    ∀ p ∈ t :: l, g p ≤ g (firstAtMax g t l) := by
  intro p hp
  rw [firstAtMax_val g t l]
  rcases List.mem_cons.mp hp with h | h
  · subst h; exact foldl_max_init_le (l.map g) (g p)
  · exact foldl_max_mem_le (l.map g) (g t) (g p) (List.mem_map_of_mem g h)

theorem firstAtMax_baseline (g : ℚ → ℚ) (t : ℚ) (l : List ℚ)
    (h : ∀ p ∈ l, g p ≤ g t) : firstAtMax g t l = t := by
  unfold firstAtMax
  have hM : listMax (g t) (l.map g) = g t := by
    apply foldl_max_eq_init
    intro x hx
    obtain ⟨y, hy, hgy⟩ := List.mem_map.mp hx
    rw [← hgy]
    exact h y hy
  rw [hM, List.find?_cons_of_pos _ (by simp)]
  rfl

theorem uniqueSorted_sorted (l : List ℚ) :
    List.Sorted (· < ·) (uniqueSorted l) := by
  have hle : List.Sorted (· ≤ ·) (uniqueSorted l) := List.sorted_mergeSort' _
  have hnd : (uniqueSorted l).Nodup := by
    have hperm : List.Perm (l.dedup.mergeSort (· ≤ ·)) l.dedup :=
      List.mergeSort_perm _ _
    exact hperm.nodup_iff.mpr l.nodup_dedup
  have hpw := List.Pairwise.and hle hnd
  exact hpw.imp fun h => lt_of_le_of_ne h.1 h.2

theorem uniqueSorted_mem (l : List ℚ) (x : ℚ) :
    x ∈ uniqueSorted l ↔ x ∈ l := by
  unfold uniqueSorted
  rw [(List.mergeSort_perm l.dedup _).mem_iff, List.mem_dedup]

theorem everyNth_sublist {α : Type} (l : List α) (k : ℕ) :
    (everyNth l k).Sublist l := by
  unfold everyNth
  have h1 : (l.enum.filter fun p => p.1 % k = 0).Sublist l.enum :=
    List.filter_sublist _
  have h2 := h1.map Prod.snd
  rwa [List.enum_map_snd] at h2

/-- **C2, confirmed.**  The threshold tuner evaluates as candidates the
ascending sorted unique predicted scores subsampled with the given
stride, after the baseline candidate `0.0`; it returns the candidate of
maximal sample-averaged F1 between `scores > candidate` and the labels,
ties resolved in favour of the earliest-evaluated candidate (the running
best is replaced only on strict improvement); if no candidate strictly
beats the baseline, the returned threshold is `0.0`. -/
theorem tune_threshold_correct (scores : ScoreBatch) (Y : List (List Bool))
    (thin : ℕ) (hthin : 1 ≤ thin) : TuneThresholdSpec scores Y thin := by
  have htune : tune_threshold scores Y thin =
      firstAtMax (fun p : ℚ => samplesF1 Y (thresholdBatch p scores)) 0
        (everyNth (uniqueSorted scores.flatten) thin) := by
    show (List.foldl
        (stepBest fun p : ℚ => samplesF1 Y (thresholdBatch p scores))
        (0, (fun p : ℚ => samplesF1 Y (thresholdBatch p scores)) 0)
        (everyNth (uniqueSorted scores.flatten) thin)).1 = _
    rw [foldl_stepBest_eq]
  refine ⟨uniqueSorted_sorted _, fun x => uniqueSorted_mem _ x,
    everyNth_sublist _ _, ?_, htune, ?_, ?_, ?_⟩
  · exact (uniqueSorted_sorted _).sublist (everyNth_sublist _ _)
  · rw [htune]
    exact firstAtMax_mem (fun p : ℚ => samplesF1 Y (thresholdBatch p scores))
      0 (everyNth (uniqueSorted scores.flatten) thin)
  · intro p hp
    rw [htune]
    exact firstAtMax_ge (fun p : ℚ => samplesF1 Y (thresholdBatch p scores))
      0 (everyNth (uniqueSorted scores.flatten) thin) p hp
  · intro hbase
    rw [htune]
    exact firstAtMax_baseline
      (fun p : ℚ => samplesF1 Y (thresholdBatch p scores))
      0 (everyNth (uniqueSorted scores.flatten) thin) hbase

set_option maxHeartbeats 1000000 in
/-- **C2, witness.** -/
theorem tune_threshold_correct_witness :
    1 ≤ 1 ∧
    TuneThresholdSpec [[1, 2], [0, 3]] [[true, false], [false, true]] 1 :=
  ⟨le_refl 1,
   tune_threshold_correct [[1, 2], [0, 3]] [[true, false], [false, true]] 1
     (le_refl 1)⟩

/- ## C3: RankNet pairwise transitivity -/

theorem dot_cons (a : ℚ) (w : List ℚ) (x : ℚ) (u : List ℚ) :
    dot (a :: w) (x :: u) = a * x + dot w u := by
  simp [dot]

theorem dot_zipWith_add (w : List ℚ) :
    ∀ u v : List ℚ, u.length = v.length →
    dot w (List.zipWith (· + ·) u v) = dot w u + dot w v := by
  induction w with
  | nil => intro u v _; simp [dot]
  | cons a w ih =>
    intro u v h
    cases u with
    | nil =>
      cases v with
      | nil => simp [dot]
      | cons y v => simp at h
    | cons x u =>
      cases v with
      | nil => simp at h
      | cons y v =>
        rw [List.zipWith_cons_cons, dot_cons, dot_cons, dot_cons,
          ih u v (by simpa using h)]
        ring

theorem dot_map_neg (w : List ℚ) :
    ∀ u : List ℚ, dot w (u.map Neg.neg) = - dot w u := by
  induction w with
  | nil => intro u; simp [dot]
  | cons a w ih =>
    intro u
    cases u with
    | nil => simp [dot]
    | cons x u =>
      rw [List.map_cons, dot_cons, dot_cons, ih u]
      ring

/-- With a single hidden layer (the negated encoding feeds directly into
the merge) and a bias-free output unit, the pairwise pre-activation is
exactly the difference of the per-object pre-activations. -/
theorem ranknet_pairwise_pre_eq (act : ℚ → ℚ) (l0 : Layer) (wo : List ℚ)
    (a c : List ℚ) :
    ranknetPairwisePre act l0 [] wo 0 a c =
      ranknetUtilityPre act l0 [] wo 0 a -
        ranknetUtilityPre act l0 [] wo 0 c := by
  unfold ranknetPairwisePre ranknetUtilityPre towerFrom
  simp only [List.foldl_nil]
  have hlen : (denseAct act l0 a).length =
      ((denseAct act l0 c).map Neg.neg).length := by
    simp [denseAct, denseAffine]
  rw [dot_zipWith_add wo _ _ hlen, dot_map_neg]
  ring

/-- **C3, counterexample.**  With the default configuration -- two hidden
`relu` layers and an output unit with a bias -- the pairwise network of
`construct_model` is not `sigmoid(U(x_i) - U(x_j))` of the scoring model,
and transitivity fails: for the concrete one-feature network with hidden
layers `relu(x)` and `relu(y + 1)`, output weight `1` and output bias
`-10`, the utilities of `[2]`, `[1]`, `[0]` are strictly decreasing, yet
the pairwise score of `([2], [0])` is below `1/2`. -/
theorem ranknet_pairwise_not_transitive :
    ranknetUtility ratSigmoid relu ([[1]], [0]) [([[1]], [1])] [1] (-10)
        [2] >
      ranknetUtility ratSigmoid relu ([[1]], [0]) [([[1]], [1])] [1] (-10)
        [1] ∧
    ranknetUtility ratSigmoid relu ([[1]], [0]) [([[1]], [1])] [1] (-10)
        [1] >
      ranknetUtility ratSigmoid relu ([[1]], [0]) [([[1]], [1])] [1] (-10)
        [0] ∧
    ranknetPairwise ratSigmoid relu ([[1]], [0]) [([[1]], [1])] [1] (-10)
        [2] [0] < 1/2 := by
  refine ⟨?_, ?_, ?_⟩ <;>
    norm_num [ranknetUtility, ranknetUtilityPre, ranknetPairwise,
      ranknetPairwisePre, towerFrom, denseAct, denseAffine, dot, relu,
      ratSigmoid]

/-- **C3, amended.**  When the network has a single hidden layer and the
output unit carries no bias, the pairwise probability is exactly
`sigmoid` of the difference of per-object pre-activations, and the
induced preference is strictly transitive: utilities
`U a > U b > U c` imply that the pairwise score of `(a, c)` exceeds
`1/2`.  (With further hidden layers after the negation, or a nonzero
output bias, this fails -- see the counterexample.) -/
theorem ranknet_transitive_single_layer_no_bias (σ act : ℚ → ℚ)
    (hσ : StrictMono σ) (hhalf : σ 0 = 1/2) (l0 : Layer) (wo : List ℚ)
    (a b c : List ℚ)
    (hab : ranknetUtility σ act l0 [] wo 0 a >
      ranknetUtility σ act l0 [] wo 0 b)
    (hbc : ranknetUtility σ act l0 [] wo 0 b >
      ranknetUtility σ act l0 [] wo 0 c) :
    ranknetPairwise σ act l0 [] wo 0 a c =
      σ (ranknetUtilityPre act l0 [] wo 0 a -
        ranknetUtilityPre act l0 [] wo 0 c) ∧
    1/2 < ranknetPairwise σ act l0 [] wo 0 a c := by
  have heq := ranknet_pairwise_pre_eq act l0 wo a c
  have h1 : ranknetPairwise σ act l0 [] wo 0 a c =
      σ (ranknetUtilityPre act l0 [] wo 0 a -
        ranknetUtilityPre act l0 [] wo 0 c) := by
    unfold ranknetPairwise
    rw [heq]
  refine ⟨h1, ?_⟩
  have hab' : ranknetUtilityPre act l0 [] wo 0 b <
      ranknetUtilityPre act l0 [] wo 0 a := hσ.lt_iff_lt.mp hab
  have hbc' : ranknetUtilityPre act l0 [] wo 0 c <
      ranknetUtilityPre act l0 [] wo 0 b := hσ.lt_iff_lt.mp hbc
  have hpos : (0:ℚ) < ranknetUtilityPre act l0 [] wo 0 a -
      ranknetUtilityPre act l0 [] wo 0 c := by linarith
  calc (1:ℚ)/2 = σ 0 := hhalf.symm
  _ < σ (ranknetUtilityPre act l0 [] wo 0 a -
      ranknetUtilityPre act l0 [] wo 0 c) := hσ hpos
  _ = ranknetPairwise σ act l0 [] wo 0 a c := h1.symm

/-- **C3, witness.** -/
theorem ranknet_transitive_single_layer_no_bias_witness :
    StrictMono ratSigmoid ∧ ratSigmoid 0 = 1/2 ∧
    ranknetUtility ratSigmoid relu ([[1]], [0]) [] [1] 0 [2] >
      ranknetUtility ratSigmoid relu ([[1]], [0]) [] [1] 0 [1] ∧
    ranknetUtility ratSigmoid relu ([[1]], [0]) [] [1] 0 [1] >
      ranknetUtility ratSigmoid relu ([[1]], [0]) [] [1] 0 [0] ∧
    1/2 < ranknetPairwise ratSigmoid relu ([[1]], [0]) [] [1] 0 [2] [0] := by
  have h1 : ranknetUtility ratSigmoid relu ([[1]], [0]) [] [1] 0 [2] >
      ranknetUtility ratSigmoid relu ([[1]], [0]) [] [1] 0 [1] := by
    norm_num [ranknetUtility, ranknetUtilityPre, towerFrom, denseAct,
      denseAffine, dot, relu, ratSigmoid]
  have h2 : ranknetUtility ratSigmoid relu ([[1]], [0]) [] [1] 0 [1] >
      ranknetUtility ratSigmoid relu ([[1]], [0]) [] [1] 0 [0] := by
    norm_num [ranknetUtility, ranknetUtilityPre, towerFrom, denseAct,
      denseAffine, dot, relu, ratSigmoid]
  exact ⟨ratSigmoid_strictMono, ratSigmoid_zero, h1, h2,
    (ranknet_transitive_single_layer_no_bias ratSigmoid relu
      ratSigmoid_strictMono ratSigmoid_zero ([[1]], [0]) [1] [2] [1] [0]
      h1 h2).2⟩

/- ## C8: the rebuilt FETA prediction path versus the training graph -/

theorem foldl_flatMap {α β γ : Type} (f : γ → β → γ) (g : α → List β) :
    ∀ (l : List α) (init : γ),
    (l.flatMap g).foldl f init =
      l.foldl (fun acc a => (g a).foldl f acc) init := by
  intro l
  induction l with
  | nil => intro init; rfl
  | cons a t ih =>
    intro init
    rw [List.flatMap_cons, List.foldl_append, List.foldl_cons, ih]

theorem zipWith_map_same {α β γ δ : Type} (f : β → γ → δ) (g : α → β)
    (h : α → γ) (l : List α) :
    List.zipWith f (l.map g) (l.map h) = l.map fun a => f (g a) (h a) := by
  induction l with
  | nil => rfl
  | cons a t ih => simp [ih]

/-- Folding one block of combinations `(i, j)` for `j ∈ J` (all greater
than `i`, no duplicates): row `i` collects `F i j` for every `j ∈ J` in
order, every row `j ∈ J` collects the single mirrored score `F j i`, and
all other rows are untouched. -/
theorem feta_block_fold (F : ℕ → ℕ → ℚ) (i : ℕ) :
    ∀ (J : List ℕ) (rows : ℕ → List ℚ), (∀ j ∈ J, i < j) → J.Nodup →
    (J.map fun j => (i, j)).foldl (fetaPairStep F) rows = fun r =>
      if r = i then rows r ++ J.map (F i)
      else if r ∈ J then rows r ++ [F r i]
      else rows r := by
  intro J
  induction J with
  | nil =>
    intro rows _ _
    funext r
    by_cases hri : r = i <;> simp [hri]
  | cons j J ih =>
    intro rows hlt hnd
    have hij : i ≠ j := Nat.ne_of_lt (hlt j (by simp))
    have hjJ : j ∉ J := (List.nodup_cons.mp hnd).1
    rw [List.map_cons, List.foldl_cons,
      ih (fetaPairStep F rows (i, j)) (fun x hx => hlt x (by simp [hx]))
        (List.nodup_cons.mp hnd).2]
    funext r
    by_cases hri : r = i
    · rw [if_pos hri, if_pos hri]
      have hstep : fetaPairStep F rows (i, j) r = rows r ++ [F i j] := by
        simp [fetaPairStep, hri]
      rw [hstep, List.map_cons, List.append_assoc, List.singleton_append]
    · by_cases hrj : r = j
      · have hmem : r ∈ j :: J := by simp [hrj]
        have hnmem : r ∉ J := by rw [hrj]; exact hjJ
        rw [if_neg hri, if_neg hri, if_neg hnmem, if_pos hmem]
        simp [fetaPairStep, hri, hrj, Ne.symm hij]
      · have hstep : fetaPairStep F rows (i, j) r = rows r := by
          simp [fetaPairStep, hri, hrj]
        by_cases hrJ : r ∈ J
        · have hmem : r ∈ j :: J := by simp [hrJ]
          rw [if_neg hri, if_neg hri, if_pos hrJ, if_pos hmem, hstep]
        · have hnmem : r ∉ j :: J := by simp [hrj, hrJ]
          rw [if_neg hri, if_neg hri, if_neg hrJ, if_neg hnmem, hstep]

theorem range_filter_ne_split (n k : ℕ) (hk : k < n) :
    (List.range n).filter (fun j => j ≠ k) =
      List.range k ++ (List.range n).filter (fun j => k < j) := by
  induction n with
  | zero => simp at hk
  | succ n ih =>
    rw [List.range_succ, List.filter_append, List.filter_append]
    by_cases hkn : k < n
    · rw [ih hkn]
      have h1 : [n].filter (fun j => j ≠ k) = [n] := by
        simp
        omega
      have h2 : [n].filter (fun j => k < j) = [n] := by
        simp
        omega
      rw [h1, h2, List.append_assoc]
    · have hk' : k = n := by omega
      subst hk'
      have h1 : [k].filter (fun j => j ≠ k) = ([] : List ℕ) := by simp
      have h2 : [k].filter (fun j => k < j) = ([] : List ℕ) := by simp
      have h3 : (List.range k).filter (fun j => j ≠ k) = List.range k := by
        rw [List.filter_eq_self]
        intro a ha
        simpa using Nat.ne_of_lt (List.mem_range.mp ha)
      have h4 : (List.range k).filter (fun j => k < j) = ([] : List ℕ) := by
        rw [List.filter_eq_nil_iff]
        intro a ha
        simpa using Nat.le_of_lt_succ (Nat.lt_succ_of_lt (List.mem_range.mp ha))
      rw [h1, h2, h3, h4]
      simp

/-- The training-graph accumulation, after the blocks for objects
`0, ..., k-1`: rows below `k` are complete, rows from `k` to `n - 1` hold
their mirrored scores against the first `k` objects, rows beyond `n` are
untouched. -/
theorem feta_fold_invariant (F : ℕ → ℕ → ℚ) (n : ℕ) :
    ∀ k, k ≤ n →
    (List.range k).foldl
      (fun rows i =>
        (((List.range n).filter fun j => i < j).map fun j => (i, j)).foldl
          (fetaPairStep F) rows)
      (fun _ => []) = fun r =>
      if r < k then ((List.range n).filter fun j => j ≠ r).map (F r)
      else if r < n then (List.range k).map (F r)
      else [] := by
  intro k
  induction k with
  | zero =>
    intro _
    funext r
    simp
  | succ k ih =>
    intro hk
    have hkn : k < n := hk
    rw [List.range_succ, List.foldl_append, ih (Nat.le_of_lt hkn),
      List.foldl_cons, List.foldl_nil]
    have hJlt : ∀ j ∈ (List.range n).filter (fun j => k < j), k < j := by
      intro j hj
      simpa using (List.mem_filter.mp hj).2
    have hJnd : ((List.range n).filter fun j => k < j).Nodup :=
      (List.nodup_range n).filter _
    rw [feta_block_fold F k _ _ hJlt hJnd]
    funext r
    by_cases hrk : r = k
    · subst hrk
      have hik : ¬ (r < r) := by omega
      have hsucc : r < r + 1 := by omega
      rw [if_pos rfl, if_neg hik, if_pos hkn, if_pos hsucc,
        range_filter_ne_split n r hkn, List.map_append]
    · by_cases hrJ : r ∈ (List.range n).filter (fun j => k < j)
      · have hr : k < r ∧ r < n := by
          have := List.mem_filter.mp hrJ
          exact ⟨by simpa using this.2, List.mem_range.mp this.1⟩
        have hrk2 : ¬ (r < k) := by omega
        have hrk3 : ¬ (r < k + 1) := by omega
        rw [if_neg hrk, if_pos hrJ, if_neg hrk2, if_pos hr.2, if_neg hrk3,
          if_pos hr.2]
        simp
      · by_cases hrlt : r < k
        · have hrlt1 : r < k + 1 := by omega
          rw [if_neg hrk, if_neg hrJ, if_pos hrlt, if_pos hrlt1]
        · have hrn : ¬ (r < n) := by
            intro hcon
            apply hrJ
            rw [List.mem_filter]
            refine ⟨List.mem_range.mpr hcon, ?_⟩
            simp
            omega
          have hrk3 : ¬ (r < k + 1) := by omega
          rw [if_neg hrk, if_neg hrJ, if_neg hrlt, if_neg hrn, if_neg hrk3,
            if_neg hrn]

/-- The rows accumulated by the FETA training graph are exactly the
competitor rows: row `r` holds `F r j` for every `j ≠ r` in ascending
order of `j`. -/
theorem fetaTrainRows_eq (F : ℕ → ℕ → ℚ) (n : ℕ) :
    fetaTrainRows F n = fun r =>
      if r < n then ((List.range n).filter fun j => j ≠ r).map (F r)
      else [] := by
  unfold fetaTrainRows combPairs
  rw [foldl_flatMap, feta_fold_invariant F n n (le_refl n)]
  funext r
  by_cases h : r < n <;> simp [h]

/-- **C8, amended.**  The per-size prediction path rebuilt from the
trained shared weights computes the same function as the training graph
when `add_zeroth_order_model` is off: the pair-enumerating row means
followed by the sigmoid equal the training scores exactly.  When
`add_zeroth_order_model` is set, the prediction path equals the training
graph with the zeroth-order utility `z` replaced by `sigmoid ∘ z`,
because `_create_zeroth_order_model` applies an extra sigmoid activation
to the linear `zero_score` output before the learned weighted-sum blend
-- so the two paths compute different functions in general. -/
theorem feta_prediction_matches_training (σ : ℚ → ℚ) (F : ℕ → ℕ → ℚ)
    (z : ℕ → ℚ) (w1 w2 b : ℚ) (n : ℕ) :
    fetaPredictScoresUsingPairs σ false F z w1 w2 b n =
      fetaTrainScores σ false F z w1 w2 b n ∧
    fetaPredictScoresUsingPairs σ true F z w1 w2 b n =
      fetaTrainScores σ true F (fun i => σ (z i)) w1 w2 b n := by
  have hrows : reshapeRows n (n - 1) (pairsFlat F id n) =
      (List.range n).map (competitorRow F id n) := reshape_pairsFlat F id n
  have hcomp : ∀ i ∈ List.range n,
      competitorRow F id n i = fetaTrainRows F n i := by
    intro i hi
    simp only [fetaTrainRows_eq]
    rw [if_pos (List.mem_range.mp hi)]
    rfl
  constructor
  · show (reshapeRows n (n - 1) (pairsFlat F id n)).map
        (fun r => (npMean r).map σ) =
      (List.range n).map fun i => (npMean (fetaTrainRows F n i)).map σ
    rw [hrows, List.map_map]
    apply List.map_congr_left
    intro i hi
    simp only [Function.comp]
    rw [hcomp i hi]
  · show List.zipWith (fun m v => m.map fun mv => weightedSum σ w1 w2 b mv v)
        ((reshapeRows n (n - 1) (pairsFlat F id n)).map npMean)
        ((List.range n).map fun i => σ (z i)) =
      (List.range n).map fun i =>
        (npMean (fetaTrainRows F n i)).map fun m =>
          weightedSum σ w1 w2 b m (σ (z i))
    rw [hrows, List.map_map, zipWith_map_same]
    apply List.map_congr_left
    intro i hi
    simp only [Function.comp]
    rw [hcomp i hi]

/-- **C8, counterexample.**  With `add_zeroth_order_model` set, the
rebuilt prediction path does not equal the training graph: for two
objects, the all-zero pairwise network, the all-zero zeroth-order
utility and a weighted-sum unit that just forwards its zeroth-order
input, the training graph outputs `sigmoid 0 = 1/2` per object while the
prediction path outputs `sigmoid (sigmoid 0)` -- the zeroth-order model
used for prediction applies an extra sigmoid. -/
theorem feta_zeroth_prediction_mismatch :
    fetaPredictScoresUsingPairs ratSigmoid true (fun _ _ => 0) (fun _ => 0)
        0 1 0 2 ≠
      fetaTrainScores ratSigmoid true (fun _ _ => 0) (fun _ => 0) 0 1 0 2 := by
  have hhalf : ratSigmoid (1/2) = 2/3 := by
    rw [ratSigmoid, abs_of_nonneg (by norm_num : (0:ℚ) ≤ 1/2)]
    norm_num
  have hL : fetaPredictScoresUsingPairs ratSigmoid true (fun _ _ => 0)
      (fun _ => 0) 0 1 0 2 = [some (2/3), some (2/3)] := by
    norm_num [fetaPredictScoresUsingPairs, reshapeRows, pairsFlat,
      orderedPairs, npMean, weightedSum, ratSigmoid_zero, hhalf,
      List.range_succ]
  have hR : fetaTrainScores ratSigmoid true (fun _ _ => 0) (fun _ => 0)
      0 1 0 2 = [some (1/2), some (1/2)] := by
    norm_num [fetaTrainScores, fetaTrainRows, combPairs, fetaPairStep,
      npMean, weightedSum, ratSigmoid_zero, List.range_succ]
  rw [hL, hR]
  intro h
  simp at h
  norm_num at h

/- ## C10: score range -/

theorem npMean_of_ne_nil (l : List ℚ) (hne : l ≠ []) :
    npMean l = some (l.sum / l.length) := by
  unfold npMean
  rw [if_neg]
  simp [hne]

theorem npMean_mem_unit (l : List ℚ) (hne : l ≠ [])
    (h : ∀ x ∈ l, 0 < x ∧ x < 1) :
    ∃ q, npMean l = some q ∧ 0 ≤ q ∧ q ≤ 1 := by
  refine ⟨l.sum / l.length, npMean_of_ne_nil l hne, ?_, ?_⟩
  · apply div_nonneg
    · apply List.sum_nonneg
      intro x hx
      exact le_of_lt (h x hx).1
    · positivity
  · have hlen : (0:ℚ) < l.length := by
      have hne0 : l.length ≠ 0 := fun h0 => hne (List.length_eq_zero.mp h0)
      positivity
    have hsum : l.sum ≤ (l.length : ℚ) := by
      have h1 : l.sum ≤ l.length • (1:ℚ) := by
        apply List.sum_le_card_nsmul
        intro x hx
        exact le_of_lt (h x hx).2
      simpa using h1
    rw [div_le_one hlen]
    exact hsum

/-- **C10, counterexample.**  On a single-object query set the pairwise
variants return the mean of an empty row -- NaN in numpy, modelled as
`none` -- which is not a value in `[0, 1]`: the claimed invariant fails
for `n = 1`. -/
theorem cmpnet_single_object_score_undefined :
    cmpnetPredictScoresFixed (fun a b : ℚ => ratSigmoid (a - b)) (fun _ => 0)
        1 = [none] ∧
    ¬ ∀ o ∈ cmpnetPredictScoresFixed (fun a b : ℚ => ratSigmoid (a - b))
        (fun _ => 0) 1, ∃ q, o = some q ∧ 0 ≤ q ∧ q ≤ 1 := by
  have h : cmpnetPredictScoresFixed (fun a b : ℚ => ratSigmoid (a - b))
      (fun _ => 0) 1 = [none] := by
    simp [cmpnetPredictScoresFixed, reshapeRows, pairsFlat, orderedPairs,
      npMean, List.range_succ]
  refine ⟨h, ?_⟩
  intro hall
  obtain ⟨q, hq, _⟩ := hall none (by rw [h]; simp)
  simp at hq

/-- **C10, amended.**  For query sets with at least two objects, every
utility score produced by `_predict_scores_fixed` lies in `[0, 1]`:
RankNet scores pass through the sigmoid output unit (for any query-set
size), CmpNet scores are means of sigmoid pairwise outputs, and FETA
scores pass through a final sigmoid or the sigmoid-activated weighted-sum
unit.  For a single-object query set the pairwise variants instead
produce the undefined mean of an empty row (see the counterexample). -/
theorem predict_scores_in_unit_interval (σ act : ℚ → ℚ) (l0 : Layer)
    (rest : List Layer) (wo : List ℚ) (bo : ℚ) (Xr : ℕ → List ℚ)
    {V : Type} (P : V → V → ℚ) (Xc : ℕ → V) (F : ℕ → ℕ → ℚ) (z : ℕ → ℚ)
    (w1 w2 b : ℚ) (addZeroth : Bool) (n : ℕ)
    (hσ : ∀ t, 0 < σ t ∧ σ t < 1) (hn : 2 ≤ n) :
    (∀ s ∈ ranknetPredictScoresFixed σ act l0 rest wo bo Xr n,
        0 ≤ s ∧ s ≤ 1) ∧
    (∀ o ∈ cmpnetPredictScoresFixed (fun a b => σ (P a b)) Xc n,
        ∃ q, o = some q ∧ 0 ≤ q ∧ q ≤ 1) ∧
    (∀ o ∈ fetaPredictScoresUsingPairs σ addZeroth F z w1 w2 b n,
        ∃ q, o = some q ∧ 0 ≤ q ∧ q ≤ 1) := by
  have hrowne : ∀ (W : Type) (f : W → W → ℚ) (X : ℕ → W) (i : ℕ), i < n →
      competitorRow f X n i ≠ [] := by
    intro W f X i hi hcon
    have := competitorRow_length f X n i hi
    rw [hcon] at this
    simp at this
    omega
  refine ⟨?_, ?_, ?_⟩
  · intro s hs
    unfold ranknetPredictScoresFixed at hs
    obtain ⟨i, _, hsi⟩ := List.mem_map.mp hs
    rw [← hsi]
    unfold ranknetUtility
    rcases hσ (ranknetUtilityPre act l0 rest wo bo (Xr i)) with ⟨h1, h2⟩
    exact ⟨le_of_lt h1, le_of_lt h2⟩
  · intro o ho
    unfold cmpnetPredictScoresFixed at ho
    rw [reshape_pairsFlat, List.map_map] at ho
    obtain ⟨i, hi, hoi⟩ := List.mem_map.mp ho
    rw [← hoi]
    simp only [Function.comp]
    apply npMean_mem_unit
    · exact hrowne V (fun a b => σ (P a b)) Xc i (List.mem_range.mp hi)
    · intro x hx
      unfold competitorRow at hx
      obtain ⟨j, _, hj⟩ := List.mem_map.mp hx
      rw [← hj]
      exact hσ _
  · cases addZeroth with
    | false =>
      intro o ho
      have hshape : fetaPredictScoresUsingPairs σ false F z w1 w2 b n =
          (reshapeRows n (n - 1) (pairsFlat F id n)).map
            fun r => (npMean r).map σ := rfl
      rw [hshape, reshape_pairsFlat, List.map_map] at ho
      obtain ⟨i, hi, hoi⟩ := List.mem_map.mp ho
      rw [← hoi]
      simp only [Function.comp]
      rw [npMean_of_ne_nil _ (hrowne ℕ F id i (List.mem_range.mp hi))]
      rcases hσ ((competitorRow F id n i).sum /
        ((competitorRow F id n i).length : ℚ)) with ⟨h1, h2⟩
      exact ⟨_, rfl, le_of_lt h1, le_of_lt h2⟩
    | true =>
      intro o ho
      have hshape : fetaPredictScoresUsingPairs σ true F z w1 w2 b n =
          List.zipWith (fun m v => m.map fun mv => weightedSum σ w1 w2 b mv v)
            ((reshapeRows n (n - 1) (pairsFlat F id n)).map npMean)
            ((List.range n).map fun i => σ (z i)) := rfl
      rw [hshape, reshape_pairsFlat, List.map_map, zipWith_map_same] at ho
      obtain ⟨i, hi, hoi⟩ := List.mem_map.mp ho
      rw [← hoi]
      simp only [Function.comp]
      rw [npMean_of_ne_nil _ (hrowne ℕ F id i (List.mem_range.mp hi))]
      refine ⟨_, rfl, ?_, ?_⟩
      · exact le_of_lt (hσ _).1
      · exact le_of_lt (hσ _).2

/-- **C10, witness.** -/
theorem predict_scores_in_unit_interval_witness :
    (∀ t : ℚ, 0 < ratSigmoid t ∧ ratSigmoid t < 1) ∧ 2 ≤ 2 ∧
    ((∀ s ∈ ranknetPredictScoresFixed ratSigmoid relu ([[1]], [0]) [] [1] 0
        (fun i => [(i : ℚ)]) 2, 0 ≤ s ∧ s ≤ 1) ∧
    (∀ o ∈ cmpnetPredictScoresFixed
        (fun a b => ratSigmoid ((fun x y : ℚ => x - y) a b))
        (fun i => (i : ℚ)) 2, ∃ q, o = some q ∧ 0 ≤ q ∧ q ≤ 1) ∧
    (∀ o ∈ fetaPredictScoresUsingPairs ratSigmoid true
        (fun i j => (i : ℚ) - (j : ℚ)) (fun _ => 0) 1 1 0 2,
        ∃ q, o = some q ∧ 0 ≤ q ∧ q ≤ 1)) :=
  ⟨ratSigmoid_mem_unit, by norm_num,
   predict_scores_in_unit_interval ratSigmoid relu ([[1]], [0]) [] [1] 0
     (fun i => [(i : ℚ)]) (fun x y : ℚ => x - y) (fun i => (i : ℚ))
     (fun i j => (i : ℚ) - (j : ℚ)) (fun _ => 0) 1 1 0 true 2
     ratSigmoid_mem_unit (by norm_num)⟩

end CsRank
